import Mathlib

/-!
System monitor (`system_monitor.cpp`): embedding and verified properties.

The C++ program samples `/proc`, derives utilisation percentages, sorts the
process table and dispatches one-line commands.  This file embeds the pure
core of that program:

* `std::string` values are lists of characters;
* `unsigned long long` values are natural numbers, reduced modulo `2 ^ 64`
  wherever the C++ arithmetic can wrap;
* `int` values are integers, with the range clamps of the library calls made
  explicit;
* `double` values are exact rationals (every finite `double` is a rational
  number, and the program never produces a NaN or an infinity);
* the contents of the files under `/proc` are inputs of the model;
* a C++ exception that nobody catches is an `Except.error`.
-/

namespace SystemMonitor

/-! ## Data model (source lines 17-34) -/

/-- Two counters of the aggregate `cpu` line, `struct ProcStatSample`. -/
structure ProcStatSample where
  total_jiffies : Nat
  idle_jiffies : Nat
deriving DecidableEq, Repr

/-- One row of the process table, `struct Process`, with its default member
initialisers. -/
structure Process where
  pid : Int := 0
  user : List Char := []
  cmd : List Char := []
  utime : Nat := 0
  stime : Nat := 0
  rss_kb : Int := 0
  cpu_percent : ℚ := 0
  mem_percent : ℚ := 0
deriving DecidableEq

/-- The member `total_time()`: `utime + stime` in 64-bit unsigned arithmetic. -/
def Process.total_time (p : Process) : Nat := (p.utime + p.stime) % 2 ^ 64

/-- The selection `enum SortMode`. -/
inductive SortMode where
  | BY_CPU
  | BY_MEM
  | BY_PID
deriving DecidableEq, Repr

/-! ## Utilisation calculator (source lines 210-227) -/

/-- The table `unordered_map<int, unsigned long long>`, as a lookup function. -/
abbrev PrevMap := Int → Option Nat

/-- The statement `prev_map[k] = v`: insert or overwrite. -/
def PrevMap.assign (m : PrevMap) (k : Int) (v : Nat) : PrevMap :=
  fun k' => if k' = k then some v else m k'

/-- First loop of `compute_cpu_percentages`: walk `prev` front to back and
store each entry's cumulative ticks under its pid. -/
def build_prev_map (prev : List Process) : PrevMap :=
  prev.foldl (fun m p => m.assign p.pid p.total_time) (fun _ => none)

/-- Body of the second loop of `compute_cpu_percentages` for one process. -/
def cpu_percent_of (prev_map : PrevMap) (total_delta_jiffies : Nat) (p : Process) : ℚ :=
  let prev_total : Nat := match prev_map p.pid with
    | some v => v
    | none => 0
  let cur_total : Nat := p.total_time
  let delta_proc : Nat := if cur_total ≥ prev_total then cur_total - prev_total else 0
  if total_delta_jiffies > 0 then
    100 * (delta_proc : ℚ) / (total_delta_jiffies : ℚ)
  else 0

/-- The function `compute_cpu_percentages`; the in-place update of `cur` is
returned as the new table. -/
def compute_cpu_percentages (cur prev : List Process) (total_delta_jiffies : Nat) :
    List Process :=
  let prev_map := build_prev_map prev
  cur.map (fun p => { p with cpu_percent := cpu_percent_of prev_map total_delta_jiffies p })

/-- Reference baseline, following the specification's words: the cumulative
ticks of the last entry of `prev` with the given pid, or 0 when there is none. -/
def ref_baseline (prev : List Process) (pid : Int) : Nat :=
  match (prev.filter (fun q => q.pid = pid)).getLast? with
  | some q => q.utime + q.stime
  | none => 0

/-- Reference tick delta, following the specification's words:
`max(0, current ticks - baseline)` over the integers. -/
def ref_delta (prev : List Process) (p : Process) : Int :=
  max 0 (((p.utime + p.stime : Nat) : Int) - ((ref_baseline prev p.pid : Nat) : Int))

/-- Reference percentage, following the specification's words. -/
def ref_cpu_percent (prev : List Process) (T : Nat) (p : Process) : ℚ :=
  if T > 0 then 100 * (ref_delta prev p : ℚ) / (T : ℚ) else 0

/-! ## System-wide load (source lines 288-304) -/

/-- The local `delta_total` of the main loop. -/
def delta_total_of (prev_stat cur_stat : ProcStatSample) : Nat :=
  if cur_stat.total_jiffies ≥ prev_stat.total_jiffies then
    cur_stat.total_jiffies - prev_stat.total_jiffies
  else 0

/-- The local `idle_delta` of the main loop. -/
def idle_delta_of (prev_stat cur_stat : ProcStatSample) : Nat :=
  if cur_stat.idle_jiffies ≥ prev_stat.idle_jiffies then
    cur_stat.idle_jiffies - prev_stat.idle_jiffies
  else 0

/-- The local `sys_cpu_load` of the main loop.  The difference
`delta_total - idle_delta` is an `unsigned long long` subtraction, hence taken
modulo `2 ^ 64`. -/
def sys_cpu_load (prev_stat cur_stat : ProcStatSample) : ℚ :=
  let delta_total := delta_total_of prev_stat cur_stat
  let idle_delta := idle_delta_of prev_stat cur_stat
  if delta_total > 0 then
    100 * (((delta_total + 2 ^ 64 - idle_delta) % 2 ^ 64 : Nat) : ℚ) / (delta_total : ℚ)
  else 0

/-! ## C and C++ library calls used by the readers -/

/-- The classifier `isspace` of the "C" locale. -/
def isspace (c : Char) : Bool :=
  c = ' ' || c = '\t' || c = '\n' || c = '\x0b' || c = '\x0c' || c = '\r'

/-- The classifier `isdigit`. -/
def isdigit (c : Char) : Bool := '0' ≤ c && c ≤ '9'

/-- Value of one decimal digit. -/
def digit_value (c : Char) : Nat := c.toNat - 48

/-- Value of a run of decimal digits, most significant first. -/
def decimal_value (ds : List Char) : Nat :=
  ds.foldl (fun acc c => 10 * acc + digit_value c) 0

/-- Optional sign in front of a number: whether it is a minus, and the rest. -/
def split_sign (s : List Char) : Bool × List Char :=
  match s with
  | [] => (false, [])
  | c :: t => if c = '-' then (true, t) else if c = '+' then (false, t) else (false, c :: t)

/-- Characters stored by `fgets` when `n` more fit: up to and including the
first newline. -/
def fgets_chars : Nat → List Char → List Char
  | 0, _ => []
  | _ + 1, [] => []
  | n + 1, c :: cs => if c = '\n' then [c] else c :: fgets_chars n cs

/-- The call `fgets(buf, size, f)` on a freshly opened file with the given
content, read back as a C string (which ends at the first NUL).  `none` is the
null return at end of file. -/
def fgets (size : Nat) (content : List Char) : Option (List Char) :=
  if content = [] then none
  else some ((fgets_chars (size - 1) content).takeWhile (fun c => c ≠ '\x00'))

/-- One `%llu` directive of `sscanf` (glibc): skip white space, read an optional
sign and a run of digits; the conversion fails without a digit.  A value that
does not fit is stored as `ULLONG_MAX`, a negative one is negated modulo
`2 ^ 64`. -/
def scan_llu (s : List Char) : Option (Nat × List Char) :=
  let s1 := s.dropWhile isspace
  let neg := (split_sign s1).1
  let s2 := (split_sign s1).2
  let ds := s2.takeWhile isdigit
  if ds = [] then none
  else
    let v := decimal_value ds
    let r := if v ≥ 2 ^ 64 then 2 ^ 64 - 1 else if neg then (2 ^ 64 - v) % 2 ^ 64 else v
    some (r, s2.dropWhile isdigit)

/-- At most `n` consecutive `%llu` directives: the values converted before the
first failure. -/
def scan_many : Nat → List Char → List Nat
  | 0, _ => []
  | n + 1, s =>
    match scan_llu s with
    | none => []
    | some (v, rest) => v :: scan_many n rest

/-- The call `sscanf(line, "cpu %llu %llu %llu %llu %llu %llu %llu %llu", ...)`:
the values it converts, in order.  The literal `cpu` has to match the start of
the line. -/
def sscanf_cpu (line : List Char) : List Nat :=
  if line.take 3 = ['c', 'p', 'u'] then scan_many 8 (line.drop 3)
  else []

/-! ## System counter reader (source lines 38-54) -/

/-- The function `read_proc_stat`.  The argument is the content of `/proc/stat`,
`none` when `fopen` fails.  The eight locals start at 0 and keep that value
where `sscanf` stored nothing; its return value is not looked at. -/
def read_proc_stat (proc_stat : Option (List Char)) : ProcStatSample :=
  match proc_stat with
  | none => { total_jiffies := 0, idle_jiffies := 0 }
  | some content =>
    match fgets 512 content with
    | none => { total_jiffies := 0, idle_jiffies := 0 }
    | some line =>
      let vals := sscanf_cpu line
      let user := vals.getD 0 0
      let nice := vals.getD 1 0
      let system := vals.getD 2 0
      let idle := vals.getD 3 0
      let iowait := vals.getD 4 0
      let irq := vals.getD 5 0
      let softirq := vals.getD 6 0
      let steal := vals.getD 7 0
      { idle_jiffies := (idle + iowait) % 2 ^ 64,
        total_jiffies :=
          (user + nice + system + idle + iowait + irq + softirq + steal) % 2 ^ 64 }

/-! ## Process snapshot reader (source lines 88-207) -/

/-- The exceptions of the standard library that the stat-line parsing can
raise; nothing in the program catches them. -/
inductive Exn where
  | out_of_range
  | invalid_argument
deriving DecidableEq, Repr

deriving instance DecidableEq for Except

/-- The call `line.find(c)`: `none` stands for `string::npos`. -/
def str_find (line : List Char) (c : Char) : Option Nat :=
  if line.indexOf c < line.length then some (line.indexOf c) else none

/-- The call `line.rfind(c)`: `none` stands for `string::npos`. -/
def str_rfind (line : List Char) (c : Char) : Option Nat :=
  if line.reverse.indexOf c < line.length then
    some (line.length - 1 - line.reverse.indexOf c)
  else none

/-- The call `s.substr(pos)`: raises `std::out_of_range` when `pos > s.size()`. -/
def substr_from (s : List Char) (pos : Nat) : Except Exn (List Char) :=
  if pos > s.length then .error .out_of_range else .ok (s.drop pos)

/-- The call `s.substr(pos, n)`. -/
def substr (s : List Char) (pos n : Nat) : Except Exn (List Char) :=
  if pos > s.length then .error .out_of_range else .ok ((s.drop pos).take n)

/-- The extraction `ss >> token` into a `std::string`: skip white space, then
take the characters up to the next white space.  Returns the token (empty when
the extraction fails) and the rest of the stream. -/
def extract_token (s : List Char) : List Char × List Char :=
  let s1 := s.dropWhile isspace
  (s1.takeWhile (fun c => !isspace c), s1.dropWhile (fun c => !isspace c))

/-- The loop `while (ss >> token) fields.push_back(token)`, at most `fuel`
rounds. -/
def extract_all : Nat → List Char → List (List Char)
  | 0, _ => []
  | fuel + 1, s =>
    if (extract_token s).1 = [] then []
    else (extract_token s).1 :: extract_all fuel (extract_token s).2

/-- The vector `fields` built from `after`.  Every round removes at least one
character, so `after.length` rounds always reach the end of the stream (see
`extract_all_fuel`). -/
def fields_of (after : List Char) : List (List Char) :=
  extract_all (after.length + 1) after

/-- The call `std::stoull(s)` (base 10, through `strtoull`): raises
`std::invalid_argument` without a digit and `std::out_of_range` when the value
does not fit 64 bits. -/
def stoull (s : List Char) : Except Exn Nat :=
  let s1 := s.dropWhile isspace
  let neg := (split_sign s1).1
  let s2 := (split_sign s1).2
  let ds := s2.takeWhile isdigit
  if ds = [] then .error .invalid_argument
  else if decimal_value ds ≥ 2 ^ 64 then .error .out_of_range
  else .ok (if neg then (2 ^ 64 - decimal_value ds) % 2 ^ 64 else decimal_value ds)

/-- Source lines 110-132 of `read_process`: from the first line of
`/proc/<pid>/stat` to the fields `cmd`, `utime` and `stime` of `p`.  With
`rparen == npos` the sum `rparen + 2` wraps around to 1. -/
def parse_stat_line (p : Process) (line : List Char) : Except Exn Process :=
  let lparen := str_find line '('
  let rparen := str_rfind line ')'
  let cmd_result : Except Exn (List Char) :=
    match lparen, rparen with
    | some l, some r => if r > l then substr line (l + 1) (r - l - 1) else .ok ['?']
    | _, _ => .ok ['?']
  let pos : Nat :=
    match rparen with
    | some r => r + 2
    | none => 1
  match cmd_result with
  | .error e => .error e
  | .ok cmd =>
    match substr_from line pos with
    | .error e => .error e
    | .ok after =>
      let fields := fields_of after
      if fields.length > 12 then
        match stoull (fields.getD 11 []) with
        | .error e => .error e
        | .ok utime =>
          match stoull (fields.getD 12 []) with
          | .error e => .error e
          | .ok stime => .ok { p with cmd := cmd, utime := utime, stime := stime }
      else .ok { p with cmd := cmd }

/-- What the files of `/proc` hold at sampling time.  The `stat` files are kept
as text; for `status`, `statm` and the directory owner only the values that
`read_process` takes from them are kept. -/
structure ProcFS where
  /-- Entries of `/proc` in `readdir` order as pairs (is a directory, name);
  `none` when `opendir` fails. -/
  dir : Option (List (Bool × List Char))
  /-- Content of `/proc/<pid>/stat`; `none` when `fopen` fails. -/
  stat : Int → Option (List Char)
  /-- User name obtained from the `Uid:` line of `/proc/<pid>/status`; empty
  when the file cannot be opened or has no such line. -/
  status_user : Int → List Char
  /-- Value of the `VmRSS:` line of `/proc/<pid>/status`; 0 without one. -/
  status_rss : Int → Int
  /-- Second number of `/proc/<pid>/statm`, when both numbers can be read. -/
  statm_rss_pages : Int → Option Nat
  /-- The quotient `sysconf(_SC_PAGESIZE) / 1024`. -/
  page_kb : Nat
  /-- User name of the owner of the directory `/proc/<pid>`, when `stat`
  succeeds. -/
  dir_owner : Int → Option (List Char)

/-- Conversion of a 64-bit pattern to `long`. -/
def to_long (n : Nat) : Int :=
  if n % 2 ^ 64 < 2 ^ 63 then ((n % 2 ^ 64 : Nat) : Int) else ((n % 2 ^ 64 : Nat) : Int) - 2 ^ 64

/-- The function `read_process`. -/
def read_process (fs : ProcFS) (pid : Int) (total_mem_kb : Int) : Except Exn Process :=
  let p : Process := { pid := pid }
  match fs.stat pid with
  | none => .ok p
  | some content =>
    match fgets 8192 content with
    | none => .ok p
    | some line =>
      match parse_stat_line p line with
      | .error e => .error e
      | .ok p1 =>
        let p2 : Process := { p1 with user := fs.status_user pid, rss_kb := fs.status_rss pid }
        let p3 : Process :=
          if p2.rss_kb = 0 then
            match fs.statm_rss_pages pid with
            | some rss_pages => { p2 with rss_kb := to_long (rss_pages * fs.page_kb) }
            | none => p2
          else p2
        let p4 : Process :=
          if p3.user = [] then
            match fs.dir_owner pid with
            | some u => { p3 with user := u }
            | none => { p3 with user := ['n', '/', 'a'] }
          else p3
        .ok { p4 with
          mem_percent :=
            if total_mem_kb > 0 then 100 * (p4.rss_kb : ℚ) / (total_mem_kb : ℚ) else 0 }

/-- The function `is_number`. -/
def is_number (s : List Char) : Bool := s.all isdigit

/-- Conversion of a `long` to `int`. -/
def to_int (x : Int) : Int := (x + 2 ^ 31) % 2 ^ 32 - 2 ^ 31

/-- The call `atoi(s)` (glibc: `strtol` in base 10, then a cast to `int`). -/
def atoi (s : List Char) : Int :=
  let s1 := s.dropWhile isspace
  let neg := (split_sign s1).1
  let v : Int := decimal_value ((split_sign s1).2.takeWhile isdigit)
  let l : Int := if neg then max (-v) (-(2 ^ 63)) else min v (2 ^ 63 - 1)
  to_int l

/-- The `readdir` loop of `read_all_processes`, with the table built so far. -/
def read_dir_loop (fs : ProcFS) (total_mem_kb : Int) :
    List (Bool × List Char) → List Process → Except Exn (List Process)
  | [], procs => .ok procs
  | de :: rest, procs =>
    if de.1 && is_number de.2 then
      match read_process fs (atoi de.2) total_mem_kb with
      | .error e => .error e
      | .ok p =>
        if p.pid ≠ 0 then read_dir_loop fs total_mem_kb rest (procs ++ [p])
        else read_dir_loop fs total_mem_kb rest procs
    else read_dir_loop fs total_mem_kb rest procs

/-- The function `read_all_processes`. -/
def read_all_processes (fs : ProcFS) (total_mem_kb : Int) : Except Exn (List Process) :=
  match fs.dir with
  | none => .ok []
  | some entries => read_dir_loop fs total_mem_kb entries []

/-! ## Ranking (source lines 306-321) -/

/-- The comparator of the `BY_CPU` branch. -/
def comp_by_cpu (a b : Process) : Bool :=
  if a.cpu_percent = b.cpu_percent then decide (a.pid < b.pid)
  else decide (a.cpu_percent > b.cpu_percent)

/-- The comparator of the `BY_MEM` branch. -/
def comp_by_mem (a b : Process) : Bool :=
  if a.mem_percent = b.mem_percent then decide (a.pid < b.pid)
  else decide (a.mem_percent > b.mem_percent)

/-- The comparator of the last branch. -/
def comp_by_pid (a b : Process) : Bool := decide (a.pid < b.pid)

/-- The call `std::sort(first, last, comp)`.  The library only promises a
permutation of the range in which no element is `comp`-smaller than one placed
before it; the standard insertion sort is taken as the executable model.  On
tables with distinct pids every algorithm keeping that promise returns the
same table, since the ordered permutation is unique. -/
def std_sort (comp : Process → Process → Bool) (l : List Process) : List Process :=
  l.insertionSort (fun a b => comp b a = false)

/-- The `if` chain on `sort_mode` in the main loop. -/
def sort_processes (sort_mode : SortMode) (cur_procs : List Process) : List Process :=
  if sort_mode = SortMode.BY_CPU then std_sort comp_by_cpu cur_procs
  else if sort_mode = SortMode.BY_MEM then std_sort comp_by_mem cur_procs
  else std_sort comp_by_pid cur_procs

/-- The comparator that the `if` chain selects for a mode. -/
def comparator (sort_mode : SortMode) : Process → Process → Bool :=
  match sort_mode with
  | .BY_CPU => comp_by_cpu
  | .BY_MEM => comp_by_mem
  | .BY_PID => comp_by_pid

/-- The order the specification gives for each mode: `a` is placed before `b`. -/
def spec_before (sort_mode : SortMode) (a b : Process) : Prop :=
  match sort_mode with
  | .BY_CPU => a.cpu_percent > b.cpu_percent ∨ (a.cpu_percent = b.cpu_percent ∧ a.pid < b.pid)
  | .BY_MEM => a.mem_percent > b.mem_percent ∨ (a.mem_percent = b.mem_percent ∧ a.pid < b.pid)
  | .BY_PID => a.pid < b.pid

/-! ## Interactive controller (source lines 353-390) -/

/-- The two locals of `main` that a command can change. -/
structure Controller where
  sort_mode : SortMode
  running : Bool
deriving DecidableEq, Repr

/-- What the dispatch of one line does besides updating the locals. -/
inductive Action where
  /-- Nothing is printed and nothing is called. -/
  | nothing
  /-- The branch printing `Invalid pid`; `kill_process` is not called. -/
  | invalid_pid
  /-- The branch calling `kill_process(pid)`. -/
  | kill (pid : Int)
  /-- The branch printing `Unknown sort mode`. -/
  | unknown_sort_mode
  /-- The branch printing `Unknown command`. -/
  | unknown_command
deriving DecidableEq, Repr

/-- The extraction `ss >> pid` into an `int` holding `old` (libstdc++, C++11
rules).  When only white space is left the stream's sentry fails and nothing is
stored.  Otherwise an optional sign and a run of digits are read: without a
digit 0 is stored, and a value outside the range of `int` is stored as
`INT_MAX` or `INT_MIN`. -/
def extract_int (s : List Char) (old : Int) : Int :=
  let s1 := s.dropWhile isspace
  if s1 = [] then old
  else
    let neg := (split_sign s1).1
    let ds := (split_sign s1).2.takeWhile isdigit
    if ds = [] then 0
    else
      let v : Int := if neg then -(decimal_value ds : Int) else (decimal_value ds : Int)
      if v > 2 ^ 31 - 1 then 2 ^ 31 - 1 else if v < -(2 ^ 31) then -(2 ^ 31) else v

/-- The dispatch of one input line read by `getline` (source lines 357-387).
The local `int pid;` has no initialiser: `indet` is the indeterminate value it
holds before the extraction. -/
def process_line (st : Controller) (line : List Char) (indet : Int) : Controller × Action :=
  let cmd := (extract_token line).1
  let ss := (extract_token line).2
  if cmd = ['q'] ∨ cmd = ['q', 'u', 'i', 't'] then
    ({ st with running := false }, .nothing)
  else if cmd = ['k'] then
    let pid := extract_int ss indet
    if pid ≤ 0 then (st, .invalid_pid) else (st, .kill pid)
  else if cmd = ['s'] then
    let mode := (extract_token ss).1
    if mode = ['c', 'p', 'u'] then ({ st with sort_mode := .BY_CPU }, .nothing)
    else if mode = ['m', 'e', 'm'] then ({ st with sort_mode := .BY_MEM }, .nothing)
    else if mode = ['p', 'i', 'd'] then ({ st with sort_mode := .BY_PID }, .nothing)
    else (st, .unknown_sort_mode)
  else if cmd = [] then (st, .nothing)
  else (st, .unknown_command)

/-- The white-space-separated tokens of a line, following the specification's
words: cut the line at every white-space character and drop the empty pieces. -/
def tokens_of (line : List Char) : List (List Char) :=
  (line.splitOnP isspace).filter (fun t => t ≠ [])

/-! ## Concrete inputs used in the evaluations below -/

/-- A `/proc` with the single numeric directory `1234` whose `stat` file cannot
be opened. -/
def fs_stat_unopenable : ProcFS :=
  { dir := some [(true, "1234".toList)]
    stat := fun _ => none
    status_user := fun _ => []
    status_rss := fun _ => 0
    statm_rss_pages := fun _ => none
    page_kb := 4
    dir_owner := fun _ => none }

/-- A `/proc` with the single numeric directory `1234` whose `stat` file opens
but is empty, so that `fgets` reads no line. -/
def fs_stat_empty : ProcFS :=
  { fs_stat_unopenable with stat := fun _ => some [] }

/-- A `/proc` with the single numeric directory `1234` whose `stat` file holds
the given text. -/
def fs_stat_text (text : String) : ProcFS :=
  { fs_stat_unopenable with stat := fun _ => some text.toList }

/-- The fields `f3 ... f17` of a sample stat line; `f14` is `150` and `f15` is
`75`. -/
def stat_fields_example : List (List Char) :=
  ["S".toList, "1".toList, "2".toList, "3".toList, "4".toList, "5".toList, "6".toList,
   "7".toList, "8".toList, "9".toList, "10".toList, "150".toList, "75".toList, "0".toList,
   "0".toList]

/-! ## Theorems -/

theorem build_prev_map_aux (prev : List Process) (m : PrevMap) (k : Int) :
    prev.foldl (fun m p => m.assign p.pid p.total_time) m k =
      match (prev.filter (fun q => q.pid = k)).getLast? with
      | some q => some q.total_time
      | none => m k := by
  induction prev generalizing m with
  | nil => simp
  | cons a l ih =>
    rw [List.foldl_cons, ih]
    by_cases h : a.pid = k
    · simp only [List.filter_cons, h, decide_True, if_true]
      rw [List.getLast?_cons]
      cases hl : (List.filter (fun q => decide (q.pid = k)) l).getLast? with
      | none => simp [PrevMap.assign]
      | some q => simp
    · have h' : ¬ k = a.pid := fun e => h e.symm
      simp [List.filter_cons, h, PrevMap.assign, h']

theorem build_prev_map_eq (prev : List Process) (k : Int) :
    build_prev_map prev k =
      match (prev.filter (fun q => q.pid = k)).getLast? with
      | some q => some q.total_time
      | none => none := by
  unfold build_prev_map
  rw [build_prev_map_aux]

theorem cpu_percent_of_eq_ref (prev : List Process) (T : Nat) (p : Process)
    (hp : p.utime + p.stime < 2 ^ 64)
    (hprev : ∀ q ∈ prev, q.utime + q.stime < 2 ^ 64) :
    cpu_percent_of (build_prev_map prev) T p = ref_cpu_percent prev T p := by
  unfold cpu_percent_of ref_cpu_percent ref_delta ref_baseline
  rw [build_prev_map_eq]
  have hpt : p.total_time = p.utime + p.stime := by
    unfold Process.total_time; exact Nat.mod_eq_of_lt hp
  cases hl : (prev.filter (fun q => q.pid = p.pid)).getLast? with
  | none =>
    by_cases hT : T > 0
    · have h1 : max (0 : Int) (((p.utime + p.stime : Nat) : Int) - ((0 : Nat) : Int))
          = ((p.utime + p.stime : Nat) : Int) := by
        apply max_eq_right; omega
      simp only [hT, if_true, hpt, h1, Int.cast_natCast]
      simp
    · simp [hT]
  | some q =>
    have hq : q ∈ prev :=
      (List.mem_filter.mp (List.mem_of_getLast?_eq_some hl)).1
    have hqt : q.total_time = q.utime + q.stime := by
      unfold Process.total_time; exact Nat.mod_eq_of_lt (hprev q hq)
    by_cases hT : T > 0
    · simp only [hT, if_true, hpt, hqt]
      by_cases hge : p.utime + p.stime ≥ q.utime + q.stime
      · have h1 : max (0 : Int) (((p.utime + p.stime : Nat) : Int) - ((q.utime + q.stime : Nat) : Int))
            = (((p.utime + p.stime) - (q.utime + q.stime) : Nat) : Int) := by
          rw [Nat.cast_sub hge]; apply max_eq_right; omega
        simp only [hge, if_true, h1, Int.cast_natCast]
      · have h1 : max (0 : Int) (((p.utime + p.stime : Nat) : Int) - ((q.utime + q.stime : Nat) : Int))
            = 0 := by
          apply max_eq_left; omega
        simp only [hge, if_false, h1]
        simp
    · simp [hT]

/-- C1: `compute_cpu_percentages` refines the reference definition.  For every
current table, previous table and tick delta `T`, with `utime + stime` below
`2 ^ 64` in both tables, the call rewrites exactly the `cpu_percent` field of
each process `p` of `cur`, to `100 * max(0, ticks p - baseline) / T` when
`T > 0` and to `0` when `T = 0`, the baseline being the ticks of the last entry
of `prev` with the pid of `p`, or 0 without such an entry.  In particular the
value is never negative, it is exactly 0 when the ticks fell below the
baseline, and a pid absent from `prev` gets `100 * ticks p / T`. -/
theorem compute_cpu_percentages_eq_reference (cur prev : List Process) (T : Nat)
    (hcur : ∀ p ∈ cur, p.utime + p.stime < 2 ^ 64)
    (hprev : ∀ q ∈ prev, q.utime + q.stime < 2 ^ 64) :
    compute_cpu_percentages cur prev T
        = cur.map (fun p => { p with cpu_percent := ref_cpu_percent prev T p })
      ∧ (∀ p ∈ cur, 0 ≤ cpu_percent_of (build_prev_map prev) T p)
      ∧ (∀ p ∈ cur, p.utime + p.stime < ref_baseline prev p.pid →
          cpu_percent_of (build_prev_map prev) T p = 0)
      ∧ (∀ p ∈ cur, (∀ q ∈ prev, q.pid ≠ p.pid) → 0 < T →
          cpu_percent_of (build_prev_map prev) T p
            = 100 * ((p.utime + p.stime : Nat) : ℚ) / (T : ℚ)) := by
  refine ⟨?_, ?_, ?_, ?_⟩
  · unfold compute_cpu_percentages
    apply List.map_congr_left
    intro p hp
    rw [cpu_percent_of_eq_ref prev T p (hcur p hp) hprev]
  · intro p _
    unfold cpu_percent_of
    simp only
    split_ifs
    · positivity
    · positivity
    · exact le_refl 0
  · intro p hp hlt
    rw [cpu_percent_of_eq_ref prev T p (hcur p hp) hprev]
    unfold ref_cpu_percent ref_delta
    have h1 : max (0 : Int) (((p.utime + p.stime : Nat) : Int)
        - ((ref_baseline prev p.pid : Nat) : Int)) = 0 := by
      apply max_eq_left; omega
    rw [h1]; simp
  · intro p hp habs hT
    rw [cpu_percent_of_eq_ref prev T p (hcur p hp) hprev]
    unfold ref_cpu_percent ref_delta ref_baseline
    have hf : prev.filter (fun q => q.pid = p.pid) = [] := by
      rw [List.filter_eq_nil_iff]
      intro q hq
      simpa using habs q hq
    rw [hf]
    simp only [List.getLast?_nil, hT, if_true]
    have h1 : max (0 : Int) (((p.utime + p.stime : Nat) : Int) - ((0 : Nat) : Int))
        = ((p.utime + p.stime : Nat) : Int) := by
      apply max_eq_right; omega
    rw [h1]; simp

/-- Witness for C1: previous ticks 100, current ticks 150 and a tick delta of
200 give 25 percent. -/
theorem compute_cpu_percentages_eq_reference_witness :
    (∀ p ∈ [({ pid := 7, utime := 90, stime := 60 } : Process)], p.utime + p.stime < 2 ^ 64)
      ∧ (∀ q ∈ [({ pid := 7, utime := 70, stime := 30 } : Process)], q.utime + q.stime < 2 ^ 64)
      ∧ compute_cpu_percentages [{ pid := 7, utime := 90, stime := 60 }]
          [{ pid := 7, utime := 70, stime := 30 }] 200
        = [{ pid := 7, utime := 90, stime := 60, cpu_percent := 25 }] := by
  have hc : ∀ p ∈ [({ pid := 7, utime := 90, stime := 60 } : Process)],
      p.utime + p.stime < 2 ^ 64 := by
    intro p hp; rw [List.mem_singleton] at hp; subst hp; norm_num
  have hp : ∀ q ∈ [({ pid := 7, utime := 70, stime := 30 } : Process)],
      q.utime + q.stime < 2 ^ 64 := by
    intro q hq; rw [List.mem_singleton] at hq; subst hq; norm_num
  refine ⟨hc, hp, ?_⟩
  rw [(compute_cpu_percentages_eq_reference _ _ 200 hc hp).1]
  simp [ref_cpu_percent, ref_delta, ref_baseline]
  norm_num

/-- C2: the system-wide busy percentage of the main loop.  For samples of
64-bit counters that did not decrease and whose idle increase is at most the
total increase, `sys_cpu_load` is `100 * (totalDelta - idleDelta) / totalDelta`
when `totalDelta > 0` and 0 when `totalDelta = 0`, in exact rational
arithmetic, with `totalDelta` and `idleDelta` the differences of the current
and previous counters. -/
theorem sys_cpu_load_busy_fraction (prev_stat cur_stat : ProcStatSample)
    (hrange : cur_stat.total_jiffies < 2 ^ 64)
    (htot : prev_stat.total_jiffies ≤ cur_stat.total_jiffies)
    (hidle : prev_stat.idle_jiffies ≤ cur_stat.idle_jiffies)
    (hle : cur_stat.idle_jiffies - prev_stat.idle_jiffies
      ≤ cur_stat.total_jiffies - prev_stat.total_jiffies) :
    sys_cpu_load prev_stat cur_stat =
      if (cur_stat.total_jiffies : ℚ) - (prev_stat.total_jiffies : ℚ) > 0 then
        100 * (((cur_stat.total_jiffies : ℚ) - (prev_stat.total_jiffies : ℚ))
            - ((cur_stat.idle_jiffies : ℚ) - (prev_stat.idle_jiffies : ℚ)))
          / ((cur_stat.total_jiffies : ℚ) - (prev_stat.total_jiffies : ℚ))
      else 0 := by
  unfold sys_cpu_load delta_total_of idle_delta_of
  have h1 : cur_stat.total_jiffies ≥ prev_stat.total_jiffies := htot
  have h2 : cur_stat.idle_jiffies ≥ prev_stat.idle_jiffies := hidle
  simp only [h1, h2, if_true]
  have hmod : (cur_stat.total_jiffies - prev_stat.total_jiffies + 2 ^ 64
      - (cur_stat.idle_jiffies - prev_stat.idle_jiffies)) % 2 ^ 64
      = (cur_stat.total_jiffies - prev_stat.total_jiffies)
        - (cur_stat.idle_jiffies - prev_stat.idle_jiffies) := by
    omega
  rw [hmod]
  by_cases hpos : cur_stat.total_jiffies - prev_stat.total_jiffies > 0
  · have hq : (cur_stat.total_jiffies : ℚ) - (prev_stat.total_jiffies : ℚ) > 0 := by
      have : (prev_stat.total_jiffies : ℚ) < (cur_stat.total_jiffies : ℚ) := by
        exact_mod_cast (by omega : prev_stat.total_jiffies < cur_stat.total_jiffies)
      linarith
    simp only [hpos, hq, if_true]
    rw [Nat.cast_sub hle, Nat.cast_sub htot, Nat.cast_sub hidle]
  · have hq : ¬ ((cur_stat.total_jiffies : ℚ) - (prev_stat.total_jiffies : ℚ) > 0) := by
      have : (cur_stat.total_jiffies : ℚ) ≤ (prev_stat.total_jiffies : ℚ) := by
        exact_mod_cast (by omega : cur_stat.total_jiffies ≤ prev_stat.total_jiffies)
      linarith
    simp only [hpos, hq, if_false]

/-- Witness for C2: the samples `{total:1000, idle:800}` and
`{total:1200, idle:850}` give 75 percent. -/
theorem sys_cpu_load_busy_fraction_witness :
    sys_cpu_load { total_jiffies := 1000, idle_jiffies := 800 }
        { total_jiffies := 1200, idle_jiffies := 850 } = 75 := by
  rw [sys_cpu_load_busy_fraction _ _ (by norm_num) (by norm_num) (by norm_num) (by norm_num)]
  norm_num

/-- C10, at the failing input: with the first lines `cpu 200 0 0 800 0 0 0 0`
and then `cpu 110 0 0 900 0 0 0 0` of `/proc/stat` the samples are
`{total:1000, idle:800}` and `{total:1010, idle:900}`; the idle increase (100)
exceeds the total increase (10), the unsigned difference wraps to `2 ^ 64 - 90`
and the load is `10 * (2 ^ 64 - 90)`, far above 100. -/
theorem sys_cpu_load_exceeds_100 :
    read_proc_stat (some "cpu 200 0 0 800 0 0 0 0\n".toList)
        = { total_jiffies := 1000, idle_jiffies := 800 }
      ∧ read_proc_stat (some "cpu 110 0 0 900 0 0 0 0\n".toList)
        = { total_jiffies := 1010, idle_jiffies := 900 }
      ∧ sys_cpu_load { total_jiffies := 1000, idle_jiffies := 800 }
          { total_jiffies := 1010, idle_jiffies := 900 } = 10 * (2 ^ 64 - 90)
      ∧ ¬ (sys_cpu_load { total_jiffies := 1000, idle_jiffies := 800 }
          { total_jiffies := 1010, idle_jiffies := 900 } ≤ 100) := by
  have h : sys_cpu_load { total_jiffies := 1000, idle_jiffies := 800 }
      { total_jiffies := 1010, idle_jiffies := 900 } = 10 * (2 ^ 64 - 90) := by
    simp [sys_cpu_load, delta_total_of, idle_delta_of]
    norm_num
  refine ⟨by decide, by decide, h, ?_⟩
  rw [h]; norm_num

/-- C3, at the failing input: `/proc` lists the directory `1234` and
`/proc/1234/stat` cannot be opened (first table) or opens without a line to
read (second table).  `read_process` has already stored the pid when it
returns early, so the test `p.pid != 0` of `read_all_processes` lets the sample
through: the table holds an entry for pid 1234 with empty user, empty command
and zero ticks. -/
theorem read_all_processes_keeps_failed_read :
    read_all_processes fs_stat_unopenable 8000000
        = .ok [{ pid := 1234, user := [], cmd := [], utime := 0, stime := 0, rss_kb := 0,
                 cpu_percent := 0, mem_percent := 0 }]
      ∧ read_all_processes fs_stat_empty 8000000
        = .ok [{ pid := 1234, user := [], cmd := [], utime := 0, stime := 0, rss_kb := 0,
                 cpu_percent := 0, mem_percent := 0 }] := by
  constructor <;> decide

/-- C8, at the failing inputs: the stat-line parsing raises an exception
(a) `std::out_of_range` from `line.substr(rparen + 2)` when the line ends right
after the closing parenthesis, (b) `std::invalid_argument` from `stoull` when
the 12th token after the parenthesis is not a number, (c) `std::out_of_range`
from `stoull` when it is `2 ^ 64`; and the exception leaves `read_process` and
`read_all_processes`. -/
theorem parse_stat_line_raises :
    parse_stat_line { pid := 1234 } "1234 (a)".toList = .error .out_of_range
      ∧ parse_stat_line { pid := 1234 } "1234 (a) S 1 2 3 4 5 6 7 8 9 10 x 75 0\n".toList
        = .error .invalid_argument
      ∧ parse_stat_line { pid := 1234 }
          "1234 (a) S 1 2 3 4 5 6 7 8 9 10 18446744073709551616 75 0\n".toList
        = .error .out_of_range
      ∧ read_process (fs_stat_text "1234 (a)") 1234 8000000 = .error .out_of_range
      ∧ read_all_processes (fs_stat_text "1234 (a)") 8000000 = .error .out_of_range := by
  refine ⟨by decide, by decide, by decide, by decide, by decide⟩

/-- C7, at the failing inputs: (a) on `k 99999999999` the extraction stores
`INT_MAX`, which is positive, and `kill_process(2147483647)` is called;
(b) on `k` alone nothing is stored into `pid`, and with the indeterminate value
7 in it `kill_process(7)` is called; (c) on `k 12abc` the extraction stops
after `12` and `kill_process(12)` is called. -/
theorem process_line_kill_not_rejected :
    process_line { sort_mode := .BY_CPU, running := true } "k 99999999999".toList 0
        = ({ sort_mode := .BY_CPU, running := true }, .kill 2147483647)
      ∧ process_line { sort_mode := .BY_CPU, running := true } "k".toList 7
        = ({ sort_mode := .BY_CPU, running := true }, .kill 7)
      ∧ process_line { sort_mode := .BY_CPU, running := true } "k 12abc".toList 0
        = ({ sort_mode := .BY_CPU, running := true }, .kill 12) := by
  refine ⟨by decide, by decide, by decide⟩

theorem scan_many_length (n : Nat) (s : List Char) : (scan_many n s).length ≤ n := by
  induction n generalizing s with
  | zero => simp [scan_many]
  | succ n ih =>
    unfold scan_many
    cases h : scan_llu s with
    | none => simp
    | some vr =>
      obtain ⟨v, rest⟩ := vr
      simp only [List.length_cons]
      exact Nat.succ_le_succ (ih rest)

theorem sscanf_cpu_length (line : List Char) : (sscanf_cpu line).length ≤ 8 := by
  unfold sscanf_cpu
  split_ifs
  · exact scan_many_length 8 _
  · simp

theorem sum_of_at_most_eight (l : List Nat) (h : l.length ≤ 8) :
    l.getD 0 0 + l.getD 1 0 + l.getD 2 0 + l.getD 3 0 + l.getD 4 0 + l.getD 5 0
      + l.getD 6 0 + l.getD 7 0 = l.sum := by
  match l, h with
  | [], _ => rfl
  | [a], _ => simp
  | [a, b], _ => simp
  | [a, b, c], _ => simp; omega
  | [a, b, c, d], _ => simp; omega
  | [a, b, c, d, e], _ => simp; omega
  | [a, b, c, d, e, f], _ => simp; omega
  | [a, b, c, d, e, f, g], _ => simp; omega
  | [a, b, c, d, e, f, g, i], _ => simp; omega
  | _ :: _ :: _ :: _ :: _ :: _ :: _ :: _ :: _ :: _, h => simp at h

/-- C4, counterexample: the first line `cpu 10 20 30 40` yields only the four
leading categories, and `read_proc_stat` returns `{total: 100, idle: 40}`, not
the zero sample. -/
theorem read_proc_stat_short_line_not_zero :
    fgets 512 "cpu 10 20 30 40\n".toList = some "cpu 10 20 30 40\n".toList
      ∧ sscanf_cpu "cpu 10 20 30 40\n".toList = [10, 20, 30, 40]
      ∧ read_proc_stat (some "cpu 10 20 30 40\n".toList)
        = { total_jiffies := 100, idle_jiffies := 40 }
      ∧ read_proc_stat (some "cpu 10 20 30 40\n".toList)
        ≠ { total_jiffies := 0, idle_jiffies := 0 } := by
  refine ⟨by decide, by decide, by decide, by decide⟩

/-- C4 as amended: `read_proc_stat` returns the zero sample when `/proc/stat`
cannot be opened, when its first line cannot be read, and when that line
yields none of the tick categories after the `cpu` prefix.  On every line that
is read, the categories that did not parse count as 0: the total is the sum of
the parsed values and the idle count is the fourth plus the fifth of them,
both modulo `2 ^ 64`. -/
theorem read_proc_stat_zero_sample :
    read_proc_stat none = { total_jiffies := 0, idle_jiffies := 0 }
      ∧ (∀ content, fgets 512 content = none →
          read_proc_stat (some content) = { total_jiffies := 0, idle_jiffies := 0 })
      ∧ (∀ content line, fgets 512 content = some line → sscanf_cpu line = [] →
          read_proc_stat (some content) = { total_jiffies := 0, idle_jiffies := 0 })
      ∧ (∀ content line, fgets 512 content = some line →
          read_proc_stat (some content)
            = { total_jiffies := (sscanf_cpu line).sum % 2 ^ 64,
                idle_jiffies :=
                  ((sscanf_cpu line).getD 3 0 + (sscanf_cpu line).getD 4 0) % 2 ^ 64 }) := by
  refine ⟨rfl, ?_, ?_, ?_⟩
  · intro content h
    simp [read_proc_stat, h]
  · intro content line h hv
    simp [read_proc_stat, h, hv]
  · intro content line h
    simp only [read_proc_stat, h]
    rw [sum_of_at_most_eight _ (sscanf_cpu_length line)]

/-- Witness for the amended C4: an empty `/proc/stat`, the line `intr 5` and
the line `cpu 10 20 30 40`. -/
theorem read_proc_stat_zero_sample_witness :
    read_proc_stat (some []) = { total_jiffies := 0, idle_jiffies := 0 }
      ∧ read_proc_stat (some "intr 5\n".toList) = { total_jiffies := 0, idle_jiffies := 0 }
      ∧ read_proc_stat (some "cpu 10 20 30 40\n".toList)
        = { total_jiffies := (sscanf_cpu "cpu 10 20 30 40\n".toList).sum % 2 ^ 64,
            idle_jiffies :=
              ((sscanf_cpu "cpu 10 20 30 40\n".toList).getD 3 0
                + (sscanf_cpu "cpu 10 20 30 40\n".toList).getD 4 0) % 2 ^ 64 } :=
  ⟨read_proc_stat_zero_sample.2.1 [] (by decide),
   read_proc_stat_zero_sample.2.2.1 "intr 5\n".toList "intr 5\n".toList (by decide) (by decide),
   read_proc_stat_zero_sample.2.2.2 "cpu 10 20 30 40\n".toList "cpu 10 20 30 40\n".toList
     (by decide)⟩

theorem sort_processes_eq (sort_mode : SortMode) (l : List Process) :
    sort_processes sort_mode l = std_sort (comparator sort_mode) l := by
  cases sort_mode <;> simp [sort_processes, comparator]

theorem comparator_iff (sort_mode : SortMode) (a b : Process) :
    comparator sort_mode a b = true ↔ spec_before sort_mode a b := by
  cases sort_mode
  · simp only [comparator, comp_by_cpu, spec_before]
    by_cases h : a.cpu_percent = b.cpu_percent
    · simp [h]
    · simp only [h, if_false, decide_eq_true_eq, false_and, or_false]
  · simp only [comparator, comp_by_mem, spec_before]
    by_cases h : a.mem_percent = b.mem_percent
    · simp [h]
    · simp only [h, if_false, decide_eq_true_eq, false_and, or_false]
  · simp [comparator, comp_by_pid, spec_before]

theorem lex_irrefl (x : ℚ) (p : Int) : ¬ (x > x ∨ (x = x ∧ p < p)) := by
  rintro (h | ⟨_, h⟩)
  · exact lt_irrefl x h
  · exact lt_irrefl p h

theorem lex_trans (x y z : ℚ) (p q r : Int)
    (h1 : x > y ∨ (x = y ∧ p < q)) (h2 : y > z ∨ (y = z ∧ q < r)) :
    x > z ∨ (x = z ∧ p < r) := by
  rcases h1 with h1 | ⟨h1, h1'⟩ <;> rcases h2 with h2 | ⟨h2, h2'⟩
  · left; linarith
  · left; linarith
  · left; linarith
  · right; exact ⟨h1.trans h2, by omega⟩

theorem lex_negtrans (x y z : ℚ) (p q r : Int)
    (h1 : ¬ (y > x ∨ (y = x ∧ q < p))) (h2 : ¬ (z > y ∨ (z = y ∧ r < q))) :
    ¬ (z > x ∨ (z = x ∧ r < p)) := by
  rw [not_or] at h1 h2 ⊢
  obtain ⟨h1, h1'⟩ := h1
  obtain ⟨h2, h2'⟩ := h2
  have hyx : y ≤ x := not_lt.mp h1
  have hzy : z ≤ y := not_lt.mp h2
  refine ⟨not_lt.mpr (hzy.trans hyx), ?_⟩
  rintro ⟨hzx, hrp⟩
  have e1 : y = x := le_antisymm hyx (by rw [← hzx]; exact hzy)
  have e2 : z = y := by rw [e1]; exact hzx
  have c1 : ¬ q < p := fun h => h1' ⟨e1, h⟩
  have c2 : ¬ r < q := fun h => h2' ⟨e2, h⟩
  omega

theorem lex_total (x y : ℚ) (p q : Int) (hne : p ≠ q) :
    (x > y ∨ (x = y ∧ p < q)) ∨ (y > x ∨ (y = x ∧ q < p)) := by
  rcases lt_trichotomy x y with h | h | h
  · right; left; exact h
  · rcases lt_trichotomy p q with h' | h' | h'
    · left; right; exact ⟨h, h'⟩
    · exact absurd h' hne
    · right; right; exact ⟨h.symm, h'⟩
  · left; left; exact h

theorem spec_before_irrefl (sort_mode : SortMode) (a : Process) :
    ¬ spec_before sort_mode a a := by
  cases sort_mode
  · exact lex_irrefl _ _
  · exact lex_irrefl _ _
  · exact lt_irrefl a.pid

theorem spec_before_trans (sort_mode : SortMode) (a b c : Process)
    (h1 : spec_before sort_mode a b) (h2 : spec_before sort_mode b c) :
    spec_before sort_mode a c := by
  cases sort_mode
  · exact lex_trans _ _ _ _ _ _ h1 h2
  · exact lex_trans _ _ _ _ _ _ h1 h2
  · exact lt_trans h1 h2

theorem spec_before_negtrans (sort_mode : SortMode) (a b c : Process)
    (h1 : ¬ spec_before sort_mode b a) (h2 : ¬ spec_before sort_mode c b) :
    ¬ spec_before sort_mode c a := by
  cases sort_mode
  · exact lex_negtrans _ _ _ _ _ _ h1 h2
  · exact lex_negtrans _ _ _ _ _ _ h1 h2
  · simp only [spec_before] at h1 h2 ⊢
    omega

theorem spec_before_total (sort_mode : SortMode) (a b : Process) (hne : a.pid ≠ b.pid) :
    spec_before sort_mode a b ∨ spec_before sort_mode b a := by
  cases sort_mode
  · exact lex_total _ _ _ _ hne
  · exact lex_total _ _ _ _ hne
  · simp only [spec_before]
    omega

theorem comparator_false_iff (sort_mode : SortMode) (a b : Process) :
    comparator sort_mode a b = false ↔ ¬ spec_before sort_mode a b := by
  rw [← comparator_iff]
  simp

theorem std_sort_sorted (sort_mode : SortMode) (l : List Process) :
    (std_sort (comparator sort_mode) l).Pairwise
      (fun a b => comparator sort_mode b a = false) := by
  unfold std_sort
  refine @List.sorted_insertionSort Process (fun a b => comparator sort_mode b a = false) _
    ⟨?_⟩ ⟨?_⟩ l
  · intro a b
    by_cases h : spec_before sort_mode b a
    · right
      rw [comparator_false_iff]
      exact fun h' => spec_before_irrefl sort_mode a (spec_before_trans sort_mode a b a h' h)
    · left
      rw [comparator_false_iff]
      exact h
  · intro a b c h1 h2
    rw [comparator_false_iff] at h1 h2 ⊢
    exact spec_before_negtrans sort_mode a b c h1 h2

theorem pairwise_before_of_sorted (sort_mode : SortMode) (l : List Process)
    (hnd : (l.map Process.pid).Nodup)
    (hs : l.Pairwise (fun a b => comparator sort_mode b a = false)) :
    l.Pairwise (spec_before sort_mode) := by
  have hne : l.Pairwise (fun a b => a.pid ≠ b.pid) := List.pairwise_map.mp hnd
  refine (hs.and hne).imp ?_
  intro a b h
  rcases spec_before_total sort_mode a b h.2 with h' | h'
  · exact h'
  · exact absurd h' ((comparator_false_iff sort_mode b a).mp h.1)

theorem pairwise_before_unique (sort_mode : SortMode) (l₁ l₂ : List Process)
    (hp : l₁.Perm l₂) (h₁ : l₁.Pairwise (spec_before sort_mode))
    (h₂ : l₂.Pairwise (spec_before sort_mode)) : l₁ = l₂ := by
  refine @List.eq_of_perm_of_sorted Process (spec_before sort_mode) ⟨?_⟩ l₁ l₂ hp h₁ h₂
  intro a b hab hba
  exact absurd (spec_before_trans sort_mode a b a hab hba) (spec_before_irrefl sort_mode a)

/-- C5: the sort of the main loop.  For every table with pairwise distinct
pids and every mode, the sorted table is a permutation of the input in which
every entry placed before another one precedes it in the order of the mode
(`cpu_percent` descending then pid ascending, `mem_percent` descending then pid
ascending, or pid ascending).  That order is irreflexive, transitive and total
on entries with distinct pids, so the sorted table is the only ordered
permutation of the input and it is the same for every arrangement of the same
entries. -/
theorem sort_processes_spec (sort_mode : SortMode) (procs : List Process)
    (hnd : (procs.map Process.pid).Nodup) :
    (sort_processes sort_mode procs).Perm procs
      ∧ (sort_processes sort_mode procs).Pairwise (spec_before sort_mode)
      ∧ (∀ a, ¬ spec_before sort_mode a a)
      ∧ (∀ a b c, spec_before sort_mode a b → spec_before sort_mode b c →
          spec_before sort_mode a c)
      ∧ (∀ a b, a.pid ≠ b.pid → spec_before sort_mode a b ∨ spec_before sort_mode b a)
      ∧ (∀ out, out.Perm procs → out.Pairwise (spec_before sort_mode) →
          out = sort_processes sort_mode procs)
      ∧ (∀ procs', procs'.Perm procs →
          sort_processes sort_mode procs' = sort_processes sort_mode procs) := by
  have hperm : ∀ l, (sort_processes sort_mode l).Perm l := by
    intro l
    rw [sort_processes_eq]
    exact List.perm_insertionSort _ l
  have hpw : ∀ l, (l.map Process.pid).Nodup →
      (sort_processes sort_mode l).Pairwise (spec_before sort_mode) := by
    intro l hl
    rw [sort_processes_eq]
    apply pairwise_before_of_sorted
    · exact (((List.perm_insertionSort _ l).map Process.pid).nodup_iff).mpr hl
    · exact std_sort_sorted sort_mode l
  refine ⟨hperm procs, hpw procs hnd, spec_before_irrefl sort_mode,
    spec_before_trans sort_mode, spec_before_total sort_mode, ?_, ?_⟩
  · intro out hout hsorted
    exact pairwise_before_unique sort_mode _ _ (hout.trans (hperm procs).symm) hsorted
      (hpw procs hnd)
  · intro procs' hp
    have hnd' : (procs'.map Process.pid).Nodup := ((hp.map Process.pid).nodup_iff).mpr hnd
    exact pairwise_before_unique sort_mode _ _ ((hperm procs').trans (hp.trans (hperm procs).symm))
      (hpw procs' hnd') (hpw procs hnd)

/-- Witness for C5: three processes sorted by CPU; the two entries with 2
percent come first, the smaller pid first. -/
theorem sort_processes_spec_witness :
    ([({ pid := 3, cpu_percent := 2 } : Process), { pid := 1 },
        { pid := 2, cpu_percent := 2 }].map Process.pid).Nodup
      ∧ sort_processes .BY_CPU
          [{ pid := 3, cpu_percent := 2 }, { pid := 1 }, { pid := 2, cpu_percent := 2 }]
        = [{ pid := 2, cpu_percent := 2 }, { pid := 3, cpu_percent := 2 }, { pid := 1 }] := by
  have hnd : ([({ pid := 3, cpu_percent := 2 } : Process), { pid := 1 },
      { pid := 2, cpu_percent := 2 }].map Process.pid).Nodup := by decide
  refine ⟨hnd, ?_⟩
  refine ((sort_processes_spec .BY_CPU _ hnd).2.2.2.2.2.1
    [{ pid := 2, cpu_percent := 2 }, { pid := 3, cpu_percent := 2 }, { pid := 1 }] ?_ ?_).symm
  · decide
  · simp [spec_before]

theorem tokens_of_cons_space (c : Char) (cs : List Char) (hc : isspace c = true) :
    tokens_of (c :: cs) = tokens_of cs := by
  unfold tokens_of
  rw [List.splitOnP_cons]
  simp [hc]

theorem tokens_of_dropWhile (l : List Char) :
    tokens_of (l.dropWhile isspace) = tokens_of l := by
  induction l with
  | nil => rfl
  | cons c cs ih =>
    by_cases hc : isspace c = true
    · rw [List.dropWhile_cons_of_pos hc, ih, tokens_of_cons_space c cs hc]
    · rw [List.dropWhile_cons_of_neg hc]

theorem splitOnP_eq (l : List Char) :
    l.splitOnP isspace = l.takeWhile (fun c => !isspace c) ::
      (match l.dropWhile (fun c => !isspace c) with
        | [] => []
        | _ :: t => t.splitOnP isspace) := by
  induction l with
  | nil => rfl
  | cons c cs ih =>
    rw [List.splitOnP_cons]
    by_cases hc : isspace c = true
    · simp [hc]
    · have hc' : isspace c = false := by simpa using hc
      rw [ih]
      simp [hc', List.modifyHead]

theorem tokens_of_step (l : List Char) (h : (extract_token l).1 ≠ []) :
    tokens_of l = (extract_token l).1 :: tokens_of (extract_token l).2 := by
  rw [← tokens_of_dropWhile l]
  unfold extract_token at h ⊢
  simp only at h ⊢
  generalize l.dropWhile isspace = s at h ⊢
  conv_lhs => unfold tokens_of; rw [splitOnP_eq]
  rw [List.filter_cons_of_pos (by simpa using h)]
  congr 1
  cases hd : s.dropWhile (fun c => !isspace c) with
  | nil => rfl
  | cons x t =>
    have hx : isspace x = true := by
      have := List.head_dropWhile_not (fun c => !isspace c) s (by rw [hd]; simp)
      simpa [hd] using this
    rw [tokens_of_cons_space x t hx]
    rfl

theorem dropWhile_space_head (l : List Char) (x : Char) (t : List Char)
    (h : l.dropWhile isspace = x :: t) : isspace x = false := by
  have := List.head_dropWhile_not isspace l (by rw [h]; simp)
  simpa [h] using this

theorem tokens_of_nil_of_extract (l : List Char) (h : (extract_token l).1 = []) :
    tokens_of l = [] := by
  rw [← tokens_of_dropWhile l]
  unfold extract_token at h
  simp only at h
  cases hd : l.dropWhile isspace with
  | nil => rfl
  | cons x t =>
    exfalso
    have hx := dropWhile_space_head l x t hd
    rw [hd] at h
    simp [List.takeWhile_cons, hx] at h

theorem first_token_eq (l : List Char) :
    (tokens_of l).getD 0 [] = (extract_token l).1 := by
  by_cases h : (extract_token l).1 = []
  · rw [tokens_of_nil_of_extract l h, h]; rfl
  · rw [tokens_of_step l h]; rfl

theorem second_token_eq (l : List Char) (h : (extract_token l).1 ≠ []) :
    (tokens_of l).getD 1 [] = (extract_token (extract_token l).2).1 := by
  rw [tokens_of_step l h]
  exact first_token_eq _

/-- C6: the sort mode after one input line.  With `first` and `second` the first
two white-space-separated tokens of the line: the mode becomes `BY_CPU`,
`BY_MEM` or `BY_PID` when `first` is `s` and `second` is `cpu`, `mem` or `pid`;
on every other line (an unknown mode, `s` alone, any `k` line, the empty line,
an unknown command) it is the mode before the line; and `running` keeps its
value unless `first` is `q` or `quit`, in which case it becomes false. -/
theorem process_line_sort_mode (st : Controller) (line : List Char) (indet : Int) :
    ((tokens_of line).getD 0 [] = "s".toList → (tokens_of line).getD 1 [] = "cpu".toList →
        (process_line st line indet).1.sort_mode = .BY_CPU)
      ∧ ((tokens_of line).getD 0 [] = "s".toList → (tokens_of line).getD 1 [] = "mem".toList →
        (process_line st line indet).1.sort_mode = .BY_MEM)
      ∧ ((tokens_of line).getD 0 [] = "s".toList → (tokens_of line).getD 1 [] = "pid".toList →
        (process_line st line indet).1.sort_mode = .BY_PID)
      ∧ (¬ ((tokens_of line).getD 0 [] = "s".toList
            ∧ ((tokens_of line).getD 1 [] = "cpu".toList
              ∨ (tokens_of line).getD 1 [] = "mem".toList
              ∨ (tokens_of line).getD 1 [] = "pid".toList)) →
        (process_line st line indet).1.sort_mode = st.sort_mode)
      ∧ ((tokens_of line).getD 0 [] ≠ "q".toList → (tokens_of line).getD 0 [] ≠ "quit".toList →
        (process_line st line indet).1.running = st.running)
      ∧ ((tokens_of line).getD 0 [] = "q".toList ∨ (tokens_of line).getD 0 [] = "quit".toList →
        (process_line st line indet).1.running = false) := by
  rw [first_token_eq]
  have hs : "s".toList = ['s'] := rfl
  have hq : "q".toList = ['q'] := rfl
  have hquit : "quit".toList = ['q', 'u', 'i', 't'] := rfl
  have hcpu : "cpu".toList = ['c', 'p', 'u'] := rfl
  have hmem : "mem".toList = ['m', 'e', 'm'] := rfl
  have hpid : "pid".toList = ['p', 'i', 'd'] := rfl
  rw [hs, hq, hquit, hcpu, hmem, hpid]
  by_cases h1 : (extract_token line).1 = ['s']
  · have hne : (extract_token line).1 ≠ [] := by rw [h1]; simp
    rw [second_token_eq line hne]
    unfold process_line
    simp only [h1]
    by_cases c1 : (extract_token (extract_token line).2).1 = ['c', 'p', 'u']
    · simp [c1]
    · by_cases c2 : (extract_token (extract_token line).2).1 = ['m', 'e', 'm']
      · simp [c2]
      · by_cases c3 : (extract_token (extract_token line).2).1 = ['p', 'i', 'd']
        · simp [c3]
        · simp [c1, c2, c3]
  · unfold process_line
    simp only [h1]
    by_cases c1 : (extract_token line).1 = ['q'] ∨ (extract_token line).1 = ['q', 'u', 'i', 't']
    · rcases c1 with c1 | c1 <;> simp [c1]
    · have c1' := c1
      rw [not_or] at c1'
      simp only [c1, if_false, c1'.1, c1'.2]
      by_cases c2 : (extract_token line).1 = ['k']
      · simp only [c2, if_true]
        split_ifs <;> simp_all
      · simp only [c2, if_false]
        split_ifs <;> simp_all

/-- Witness for C6: `s mem` selects `BY_MEM`; `s banana` and `k 99999999`
leave the mode and `running` as they were. -/
theorem process_line_sort_mode_witness :
    (process_line { sort_mode := .BY_CPU, running := true } "s mem".toList 0).1.sort_mode
        = .BY_MEM
      ∧ (process_line { sort_mode := .BY_PID, running := true } "s banana".toList 0).1.sort_mode
        = .BY_PID
      ∧ (process_line { sort_mode := .BY_PID, running := true } "k 99999999".toList 0).1.sort_mode
        = .BY_PID
      ∧ (process_line { sort_mode := .BY_PID, running := true } "k 99999999".toList 0).1.running
        = true :=
  ⟨(process_line_sort_mode _ "s mem".toList 0).2.1 (by decide) (by decide),
   (process_line_sort_mode _ "s banana".toList 0).2.2.2.1 (by decide),
   (process_line_sort_mode _ "k 99999999".toList 0).2.2.2.1 (by decide),
   (process_line_sort_mode _ "k 99999999".toList 0).2.2.2.2.1 (by decide) (by decide)⟩

theorem isdigit_not_space (c : Char) (h : isdigit c = true) : isspace c = false := by
  cases hs : isspace c with
  | false => rfl
  | true =>
    exfalso
    simp only [isspace, Bool.or_eq_true, decide_eq_true_eq] at hs
    rcases hs with ((((rfl | rfl) | rfl) | rfl) | rfl) | rfl <;> exact absurd h (by decide)

theorem split_sign_digit (c : Char) (t : List Char) (h : isdigit c = true) :
    split_sign (c :: t) = (false, c :: t) := by
  have h1 : c ≠ '-' := by rintro rfl; exact absurd h (by decide)
  have h2 : c ≠ '+' := by rintro rfl; exact absurd h (by decide)
  simp [split_sign, h1, h2]

theorem stoull_digits (f : List Char) (hne : f ≠ []) (hd : ∀ c ∈ f, isdigit c = true)
    (hv : decimal_value f < 2 ^ 64) : stoull f = .ok (decimal_value f) := by
  obtain ⟨c, t, rfl⟩ := List.exists_cons_of_ne_nil hne
  have hc : isdigit c = true := hd c (List.mem_cons_self _ _)
  have hsp : isspace c = false := isdigit_not_space c hc
  unfold stoull
  have h1 : (c :: t).dropWhile isspace = c :: t := by
    simp [List.dropWhile_cons, hsp]
  have h2 : (c :: t).takeWhile isdigit = c :: t := List.takeWhile_eq_self_iff.mpr hd
  simp only [h1, split_sign_digit c t hc, h2]
  have hv' : ¬ decimal_value (c :: t) ≥ 2 ^ 64 := Nat.not_le.mpr hv
  simp only [hv', if_false]
  simp

theorem extract_token_append (f t : List Char) (hne : f ≠ [])
    (hf : ∀ c ∈ f, isspace c = false) (ht : t.takeWhile (fun c => !isspace c) = []) :
    extract_token (f ++ t) = (f, t) := by
  obtain ⟨c, f', rfl⟩ := List.exists_cons_of_ne_nil hne
  have hc := hf c (List.mem_cons_self _ _)
  have h1 : (c :: f' ++ t).dropWhile isspace = c :: f' ++ t := by
    simp [List.dropWhile_cons, hc]
  have hall : ∀ a ∈ c :: f', (fun c => !isspace c) a = true := by
    intro a ha; simp [hf a ha]
  have h2 : (c :: f' ++ t).takeWhile (fun c => !isspace c) = c :: f' := by
    rw [List.takeWhile_append_of_pos hall, ht, List.append_nil]
  have h3 : (c :: f' ++ t).dropWhile (fun c => !isspace c) = t := by
    rw [List.dropWhile_append_of_pos hall]
    have := List.takeWhile_append_dropWhile (fun c => !isspace c) t
    rw [ht] at this; simpa using this
  unfold extract_token
  simp only [h1, h2, h3]

theorem extract_all_cons_space (n : Nat) (c : Char) (s : List Char) (hc : isspace c = true) :
    extract_all n (c :: s) = extract_all n s := by
  cases n with
  | zero => rfl
  | succ n =>
    have : extract_token (c :: s) = extract_token s := by
      unfold extract_token; simp [List.dropWhile_cons, hc]
    simp only [extract_all, this]

theorem extract_all_spaces (n : Nat) (trail : List Char) (h : ∀ c ∈ trail, isspace c = true) :
    extract_all n trail = [] := by
  cases n with
  | zero => rfl
  | succ n =>
    have : (extract_token trail).1 = [] := by
      unfold extract_token
      have : trail.dropWhile isspace = [] := List.dropWhile_eq_nil_iff.mpr h
      simp [this]
    simp [extract_all, this]

theorem takeWhile_nonspace_spaces (trail : List Char) (h : ∀ c ∈ trail, isspace c = true) :
    trail.takeWhile (fun c => !isspace c) = [] := by
  cases trail with
  | nil => rfl
  | cons c t => simp [List.takeWhile_cons, h c (List.mem_cons_self _ _)]

theorem extract_all_intercalate : ∀ (fs : List (List Char)) (trail : List Char) (n : Nat),
    (∀ f ∈ fs, f ≠ [] ∧ ∀ c ∈ f, isspace c = false) → (∀ c ∈ trail, isspace c = true) →
    fs.length < n → extract_all n (List.intercalate [' '] fs ++ trail) = fs
  | [], trail, n, _, ht, _ => by
    simpa [List.intercalate] using extract_all_spaces n trail ht
  | [f], trail, n, hf, ht, hn => by
    obtain ⟨m, rfl⟩ : ∃ m, n = m + 1 := ⟨n - 1, by simp at hn; omega⟩
    have hff := hf f (List.mem_singleton_self f)
    have hi : List.intercalate [' '] [f] = f := by simp [List.intercalate]
    rw [hi]
    simp only [extract_all,
      extract_token_append f trail hff.1 hff.2 (takeWhile_nonspace_spaces trail ht)]
    simp [hff.1, extract_all_spaces m trail ht]
  | f :: g :: r, trail, n, hf, ht, hn => by
    obtain ⟨m, rfl⟩ : ∃ m, n = m + 1 := ⟨n - 1, by simp at hn; omega⟩
    have hff := hf f (List.mem_cons_self _ _)
    have hi : List.intercalate [' '] (f :: g :: r) ++ trail
        = f ++ (' ' :: (List.intercalate [' '] (g :: r) ++ trail)) := by
      simp [List.intercalate]
    rw [hi]
    have ht' : (' ' :: (List.intercalate [' '] (g :: r) ++ trail)).takeWhile
        (fun c => !isspace c) = [] := by
      simp [List.takeWhile_cons, isspace]
    simp only [extract_all, extract_token_append f _ hff.1 hff.2 ht']
    rw [extract_all_cons_space _ _ _ (by decide)]
    rw [extract_all_intercalate (g :: r) trail m
      (fun x hx => hf x (List.mem_cons_of_mem _ hx)) ht (by simp at hn ⊢; omega)]
    simp [hff.1]

theorem intercalate_length_ge : ∀ (fs : List (List Char)), (∀ f ∈ fs, f ≠ []) →
    fs.length ≤ (List.intercalate [' '] fs).length
  | [], _ => by simp
  | [f], hf => by
    have := List.length_pos.mpr (hf f (List.mem_singleton_self f))
    simp [List.intercalate]; omega
  | f :: g :: r, hf => by
    have h1 := List.length_pos.mpr (hf f (List.mem_cons_self _ _))
    have h2 := intercalate_length_ge (g :: r) (fun x hx => hf x (List.mem_cons_of_mem _ hx))
    have hi : List.intercalate [' '] (f :: g :: r)
        = f ++ (' ' :: List.intercalate [' '] (g :: r)) := by
      simp [List.intercalate]
    rw [hi]
    simp only [List.length_append, List.length_cons] at h2 ⊢
    omega

theorem fields_of_intercalate (fs : List (List Char)) (trail : List Char)
    (hf : ∀ f ∈ fs, f ≠ [] ∧ ∀ c ∈ f, isspace c = false)
    (ht : ∀ c ∈ trail, isspace c = true) :
    fields_of (List.intercalate [' '] fs ++ trail) = fs := by
  unfold fields_of
  apply extract_all_intercalate fs trail _ hf ht
  have := intercalate_length_ge fs (fun f h => (hf f h).1)
  simp only [List.length_append]
  omega

theorem extract_token_rest_length (s : List Char) (h : (extract_token s).1 ≠ []) :
    (extract_token s).2.length < s.length := by
  unfold extract_token at h ⊢
  simp only at h ⊢
  have h1 : (s.dropWhile isspace).length ≤ s.length := by
    have := List.takeWhile_append_dropWhile isspace s
    have h' := congrArg List.length this
    simp only [List.length_append] at h'
    omega
  have h2 := congrArg List.length
    (List.takeWhile_append_dropWhile (fun c => !isspace c) (s.dropWhile isspace))
  simp only [List.length_append] at h2
  have h3 := List.length_pos.mpr h
  omega

theorem extract_all_fuel (n m : Nat) (s : List Char) (hn : s.length < n) (hm : s.length < m) :
    extract_all n s = extract_all m s := by
  induction n generalizing m s with
  | zero => omega
  | succ n ih =>
    cases m with
    | zero => omega
    | succ m =>
      simp only [extract_all]
      by_cases h : (extract_token s).1 = []
      · simp [h]
      · simp only [h, if_false]
        have hl := extract_token_rest_length s h
        rw [ih m _ (by omega) (by omega)]

theorem str_find_append (pre rest : List Char) (c : Char) (h : c ∉ pre) :
    str_find (pre ++ c :: rest) c = some pre.length := by
  unfold str_find
  rw [List.indexOf_append_of_not_mem h, List.indexOf_cons_self]
  simp

theorem str_rfind_append (pre post : List Char) (c : Char) (h : c ∉ post) :
    str_rfind (pre ++ c :: post) c = some pre.length := by
  unfold str_rfind
  have hr : (pre ++ c :: post).reverse = post.reverse ++ c :: pre.reverse := by simp
  rw [hr, List.indexOf_append_of_not_mem (by simpa using h), List.indexOf_cons_self]
  simp only [List.length_reverse, List.length_append, List.length_cons, Nat.add_zero]
  rw [if_pos (by omega)]
  congr 1
  omega

theorem mem_intercalate_space : ∀ (fs : List (List Char)) (c : Char),
    c ∈ List.intercalate [' '] fs → c = ' ' ∨ ∃ f ∈ fs, c ∈ f
  | [], c, h => by simp [List.intercalate] at h
  | [f], c, h => by
    have hi : List.intercalate [' '] [f] = f := by simp [List.intercalate]
    rw [hi] at h
    exact Or.inr ⟨f, List.mem_singleton_self f, h⟩
  | f :: g :: r, c, h => by
    have hi : List.intercalate [' '] (f :: g :: r)
        = f ++ (' ' :: List.intercalate [' '] (g :: r)) := by
      simp [List.intercalate]
    rw [hi, List.mem_append, List.mem_cons] at h
    rcases h with h | h | h
    · exact Or.inr ⟨f, List.mem_cons_self _ _, h⟩
    · exact Or.inl h
    · rcases mem_intercalate_space (g :: r) c h with h' | ⟨x, hx, hc⟩
      · exact Or.inl h'
      · exact Or.inr ⟨x, List.mem_cons_of_mem _ hx, hc⟩

theorem parse_stat_line_shape (p : Process) (pre comm body : List Char)
    (hpre : '(' ∉ pre) (hbody : ')' ∉ body) :
    parse_stat_line p (pre ++ '(' :: (comm ++ ')' :: ' ' :: body)) =
      if (fields_of body).length > 12 then
        match stoull ((fields_of body).getD 11 []) with
        | .error e => .error e
        | .ok utime =>
          match stoull ((fields_of body).getD 12 []) with
          | .error e => .error e
          | .ok stime => .ok { p with cmd := comm, utime := utime, stime := stime }
      else .ok { p with cmd := comm } := by
  have hl : str_find (pre ++ '(' :: (comm ++ ')' :: ' ' :: body)) '(' = some pre.length :=
    str_find_append pre _ '(' hpre
  have hline : pre ++ '(' :: (comm ++ ')' :: ' ' :: body)
      = (pre ++ '(' :: comm) ++ ')' :: (' ' :: body) := by simp
  have hr : str_rfind (pre ++ '(' :: (comm ++ ')' :: ' ' :: body)) ')'
      = some (pre.length + 1 + comm.length) := by
    rw [hline, str_rfind_append _ _ ')' (by simpa using hbody)]
    simp only [List.length_append, List.length_cons, Option.some.injEq]
    omega
  have hcmd : substr (pre ++ '(' :: (comm ++ ')' :: ' ' :: body)) (pre.length + 1)
      (pre.length + 1 + comm.length - pre.length - 1) = .ok comm := by
    unfold substr
    rw [if_neg (by simp only [List.length_append, List.length_cons, gt_iff_lt, not_lt]; omega)]
    have e1 : pre ++ '(' :: (comm ++ ')' :: ' ' :: body)
        = (pre ++ ['(']) ++ (comm ++ ')' :: ' ' :: body) := by simp
    rw [e1, List.drop_left' (by simp), List.take_left' (by omega)]
  have hafter : substr_from (pre ++ '(' :: (comm ++ ')' :: ' ' :: body))
      (pre.length + 1 + comm.length + 2) = .ok body := by
    unfold substr_from
    rw [if_neg (by simp only [List.length_append, List.length_cons, gt_iff_lt, not_lt]; omega)]
    have e1 : pre ++ '(' :: (comm ++ ')' :: ' ' :: body)
        = (pre ++ '(' :: (comm ++ [')', ' '])) ++ body := by simp
    rw [e1, List.drop_left' (by simp; omega)]
  unfold parse_stat_line
  simp only [hl, hr]
  rw [if_pos (by omega), hcmd, hafter]

/-- C9, counterexample: on a well-formed line whose 14th and 15th fields are
both `2 ^ 63` the parsing stores both values, and `total_time()`, a 64-bit
unsigned sum, is 0 and not `2 ^ 63 + 2 ^ 63`. -/
theorem parse_stat_line_total_time_wraps :
    parse_stat_line { pid := 1234 }
        "1234 (a) S 1 2 3 4 5 6 7 8 9 10 9223372036854775808 9223372036854775808 0\n".toList
        = .ok { pid := 1234, cmd := ['a'], utime := 2 ^ 63, stime := 2 ^ 63 }
      ∧ Process.total_time { pid := 1234, cmd := ['a'], utime := 2 ^ 63, stime := 2 ^ 63 } = 0
      ∧ Process.total_time { pid := 1234, cmd := ['a'], utime := 2 ^ 63, stime := 2 ^ 63 }
        ≠ 2 ^ 63 + 2 ^ 63 := by
  refine ⟨by decide, by decide, by decide⟩

/-- C9 as amended: on every line `pid (comm) f3 f4 ... fN` with `N >= 15`, a
decimal `pid`, any `comm`, single-space-separated non-empty fields without white
space or `)`, an optional run of white space at the end, and decimal `f14`,
`f15` below `2 ^ 64`, the parsing succeeds with `cmd = comm`, `utime = f14` and
`stime = f15`; `total_time()` is then `(f14 + f15) mod 2 ^ 64`. -/
theorem parse_stat_line_well_formed (p : Process) (pid_str comm : List Char)
    (fs : List (List Char)) (trail : List Char)
    (hpid : ∀ c ∈ pid_str, isdigit c = true)
    (hfs : ∀ f ∈ fs, f ≠ [] ∧ ∀ c ∈ f, isspace c = false ∧ c ≠ ')')
    (hlen : 13 ≤ fs.length)
    (htrail : ∀ c ∈ trail, isspace c = true)
    (hu : (∀ c ∈ fs.getD 11 [], isdigit c = true) ∧ decimal_value (fs.getD 11 []) < 2 ^ 64)
    (hs : (∀ c ∈ fs.getD 12 [], isdigit c = true) ∧ decimal_value (fs.getD 12 []) < 2 ^ 64) :
    parse_stat_line p
        (pid_str ++ " (".toList ++ comm ++ ") ".toList ++ List.intercalate [' '] fs ++ trail)
        = .ok { p with
            cmd := comm
            utime := decimal_value (fs.getD 11 [])
            stime := decimal_value (fs.getD 12 []) }
      ∧ Process.total_time { p with
            cmd := comm
            utime := decimal_value (fs.getD 11 [])
            stime := decimal_value (fs.getD 12 []) }
        = (decimal_value (fs.getD 11 []) + decimal_value (fs.getD 12 [])) % 2 ^ 64 := by
  refine ⟨?_, rfl⟩
  have e1 : " (".toList = [' ', '('] := rfl
  have e2 : ") ".toList = [')', ' '] := rfl
  have hline : pid_str ++ " (".toList ++ comm ++ ") ".toList ++ List.intercalate [' '] fs ++ trail
      = (pid_str ++ [' ']) ++ '(' :: (comm ++ ')' :: ' ' :: (List.intercalate [' '] fs ++ trail)) := by
    rw [e1, e2]; simp
  have hpre : '(' ∉ pid_str ++ [' '] := by
    intro h
    rw [List.mem_append, List.mem_singleton] at h
    rcases h with h | h
    · exact absurd (hpid _ h) (by decide)
    · exact absurd h (by decide)
  have hbody : ')' ∉ List.intercalate [' '] fs ++ trail := by
    intro h
    rw [List.mem_append] at h
    rcases h with h | h
    · rcases mem_intercalate_space fs _ h with h' | ⟨f, hf, hc⟩
      · exact absurd h' (by decide)
      · exact ((hfs f hf).2 _ hc).2 rfl
    · exact absurd (htrail _ h) (by decide)
  have hfields : fields_of (List.intercalate [' '] fs ++ trail) = fs :=
    fields_of_intercalate fs trail (fun f hf => ⟨(hfs f hf).1, fun c hc => ((hfs f hf).2 c hc).1⟩)
      htrail
  have h11 : fs.getD 11 [] ∈ fs := by
    rw [List.getD_eq_getElem _ _ (by omega)]; exact List.getElem_mem _
  have h12 : fs.getD 12 [] ∈ fs := by
    rw [List.getD_eq_getElem _ _ (by omega)]; exact List.getElem_mem _
  rw [hline, parse_stat_line_shape p _ comm _ hpre hbody, hfields, if_pos (by omega),
    stoull_digits _ (hfs _ h11).1 hu.1 hu.2, stoull_digits _ (hfs _ h12).1 hs.1 hs.2]

/-- Witness for the amended C9: the line
`1234 (my (weird) proc) S 1 2 3 4 5 6 7 8 9 10 150 75 0 0` gives the command
`my (weird) proc`, `utime = 150` and `stime = 75`. -/
theorem parse_stat_line_well_formed_witness :
    parse_stat_line { pid := 1234 }
        ("1234".toList ++ " (".toList ++ "my (weird) proc".toList ++ ") ".toList
          ++ List.intercalate [' '] stat_fields_example ++ "\n".toList)
      = .ok { pid := 1234, cmd := "my (weird) proc".toList, utime := 150, stime := 75 } :=
  (parse_stat_line_well_formed { pid := 1234 } "1234".toList "my (weird) proc".toList
    stat_fields_example "\n".toList (by decide) (by decide) (by decide) (by decide)
    (by decide) (by decide)).1

end SystemMonitor
